import Mathlib

/-!
Verification of the CKKS approximate homomorphic-encryption core described by
the design document of the `aijack.defense` package, together with a model of
the package's import surface (`src/aijack/defense/init`).

The repository snapshot contains only the package initializer; the `ckks`
submodule itself (encoder, encrypter, arithmetic engine) is not part of the
snapshot.  All CKKS definitions below are therefore modelled from the spec, as
their doc comments state, and the theorems settle the spec's claims against
that model.
-/

namespace CKKS

/-- Modelled from the spec: the Parameter Set fixes the ring dimension `N`
(a power of two, stored here through its exponent `logN`), the modulus chain
`[Q_0, ..., Q_L]` of primes, and is shared by every derived object.
(The `ckks` submodule is missing from the snapshot.) -/
structure CKKSParams where
  logN : ℕ
  moduli : List ℕ
deriving DecidableEq

/-- Ring dimension `N = 2 ^ logN`. -/
def ringDim (P : CKKSParams) : ℕ := 2 ^ P.logN

/-- The exhausted level index `L` (the modulus chain is `[Q_0, ..., Q_L]`). -/
def topLevel (P : CKKSParams) : ℕ := P.moduli.length - 1

/-- Modulus in effect at a given level: the product of the chain entries up to
and including that level (residue-number-system style chain). -/
def Qat (P : CKKSParams) (l : ℕ) : ℕ := ((P.moduli.take (l + 1)).prod)

/-- Slot capacity `N / 2`. -/
def slotCount (P : CKKSParams) : ℕ := ringDim P / 2

/-- Modelled from the spec: parameter-set invariant — `N` is a power of two
(with at least one slot), the chain has length `L + 1 ≥ 2`, its entries are
primes, pairwise coprime, and descending. -/
def ParamsWF (P : CKKSParams) : Prop :=
  1 ≤ P.logN ∧ 2 ≤ P.moduli.length ∧ (∀ q ∈ P.moduli, Nat.Prime q) ∧
    P.moduli.Pairwise Nat.Coprime ∧ P.moduli.Chain' (· > ·)

instance (P : CKKSParams) : Decidable (ParamsWF P) :=
  inferInstanceAs (Decidable (_ ∧ _ ∧ (∀ q ∈ P.moduli, Nat.Prime q) ∧ _ ∧ _))

/-- Modelled from the spec: the error taxonomy of the core.  Recoverable
errors are returned to the caller; `KeyGenFailure` is fatal to the
key-generation ceremony. -/
inductive CKKSError
  | SlotOverflow
  | LevelMismatch
  | ScaleMismatch
  | LevelExhausted
  | KeyGenFailure
deriving DecidableEq

/-- Centered representative of `a` modulo `q`, used for every
coefficient reduction `mod Q_level`. -/
def cmod (a : ℤ) (q : ℕ) : ℤ := (a + (q : ℤ) / 2) % (q : ℤ) - (q : ℤ) / 2

/-- Coefficient-wise addition in the polynomial ring. -/
def polyAdd (N : ℕ) (a b : Fin N → ℤ) : Fin N → ℤ := fun k => a k + b k

/-- Coefficient-wise negation in the polynomial ring. -/
def polyNeg (N : ℕ) (a : Fin N → ℤ) : Fin N → ℤ := fun k => - a k

/-- Sign-and-index kernel of negacyclic convolution: the monomial `X ^ t`
reduces to `(-1) ^ (t / N) * X ^ (t % N)` in `ℤ[X] / (X ^ N + 1)`. -/
def twist (N t k : ℕ) : ℤ := if t % N = k then (-1) ^ (t / N) else 0

/-- Modelled from the spec: polynomial multiplication as modular (negacyclic)
convolution — the transform-free reference semantics of the ring
`ℤ[X] / (X ^ N + 1)`. -/
def polyMul (N : ℕ) (a b : Fin N → ℤ) : Fin N → ℤ :=
  fun k => ∑ i : Fin N, ∑ j : Fin N, a i * b j * twist N ((i : ℕ) + (j : ℕ)) (k : ℕ)

/-- Coefficient-wise centered reduction of a ring element modulo `q`. -/
def pmod (N : ℕ) (q : ℕ) (c : Fin N → ℤ) : Fin N → ℤ := fun k => cmod (c k) q

/-- Modelled from the spec: a Plaintext is a polynomial of degree `< N` with
coefficients mod `Q_level`, an associated (positive) scale and a level index
into the modulus chain. -/
structure CKKSPlaintext (P : CKKSParams) where
  coeffs : Fin (ringDim P) → ℤ
  scale : ℚ
  level : ℕ

/-- Modelled from the spec: a Ciphertext is a pair of ring elements at a given
level and scale, each reduced mod `Q_level`. -/
structure Ciphertext (P : CKKSParams) where
  c0 : Fin (ringDim P) → ℤ
  c1 : Fin (ringDim P) → ℤ
  scale : ℚ
  level : ℕ

/-- Modelled from the spec: a SecretKey is a ring element with small
coefficients, owned by the decrypting party. -/
structure SecretKey (P : CKKSParams) where
  s : Fin (ringDim P) → ℤ

/-- Modelled from the spec: a PublicKey is a pair of ring elements derived
from the secret key plus fresh randomness. -/
structure PublicKey (P : CKKSParams) where
  b : Fin (ringDim P) → ℤ
  a : Fin (ringDim P) → ℤ

/-- Modelled from the spec: an EvaluationKey (relinearization or rotation
key) is auxiliary key-switching material, a pair of ring elements. -/
structure EvalKey (P : CKKSParams) where
  b : Fin (ringDim P) → ℤ
  a : Fin (ringDim P) → ℤ

/-- Modelled from the spec: `generate_public_key sk` with explicit randomness
returns `(b = -a * sk + e, a)` reduced at the freshest modulus. -/
def generate_public_key (P : CKKSParams) (sk : SecretKey P)
    (a e : Fin (ringDim P) → ℤ) : PublicKey P :=
  { b := pmod _ (Qat P (topLevel P))
      (polyAdd _ (polyNeg _ (polyMul _ a sk.s)) e)
    a := a }

/-- Modelled from the spec: `encrypt pt pk` with explicit ephemeral
randomness `u` and errors `e0, e1` returns
`(c0 = b * u + e0 + pt, c1 = a * u + e1)` at `pt.level`, inheriting
`pt.scale`. -/
def encrypt (P : CKKSParams) (pt : CKKSPlaintext P) (pk : PublicKey P)
    (u e0 e1 : Fin (ringDim P) → ℤ) : Ciphertext P :=
  { c0 := pmod _ (Qat P pt.level)
      (polyAdd _ (polyAdd _ (polyMul _ pk.b u) e0) pt.coeffs)
    c1 := pmod _ (Qat P pt.level) (polyAdd _ (polyMul _ pk.a u) e1)
    scale := pt.scale
    level := pt.level }

/-- Modelled from the spec: `decrypt ct sk` computes
`c0 + c1 * sk mod Q_level`, yielding a Plaintext at `ct.level` and
`ct.scale`. -/
def decrypt (P : CKKSParams) (ct : Ciphertext P) (sk : SecretKey P) :
    CKKSPlaintext P :=
  { coeffs := pmod _ (Qat P ct.level) (polyAdd _ ct.c0 (polyMul _ ct.c1 sk.s))
    scale := ct.scale
    level := ct.level }

/-- Modelled from the spec: `add ct1 ct2` requires equal level and equal
scale (failing with `LevelMismatch` respectively `ScaleMismatch`) and
performs coefficient-wise modular addition. -/
def add (P : CKKSParams) (ct1 ct2 : Ciphertext P) :
    Except CKKSError (Ciphertext P) :=
  if ct1.level ≠ ct2.level then .error .LevelMismatch
  else if ct1.scale ≠ ct2.scale then .error .ScaleMismatch
  else .ok
    { c0 := pmod _ (Qat P ct1.level) (polyAdd _ ct1.c0 ct2.c0)
      c1 := pmod _ (Qat P ct1.level) (polyAdd _ ct1.c1 ct2.c1)
      scale := ct1.scale
      level := ct1.level }

/-- Modelled from the spec: `multiply ct1 ct2 rk` performs tensor-style
degree-2 multiplication, immediately relinearized back to two terms with the
relinearization key; the resulting scale is the product of the input scales
and the level is unchanged (rescale is a separate explicit step).  Following
the spec's error taxonomy, multiplication attempted at level 0 fails with
`LevelExhausted`, and mismatched input levels fail with `LevelMismatch`. -/
def multiply (P : CKKSParams) (ct1 ct2 : Ciphertext P) (rk : EvalKey P) :
    Except CKKSError (Ciphertext P) :=
  if ct1.level ≠ ct2.level then .error .LevelMismatch
  else if ct1.level = 0 then .error .LevelExhausted
  else
    let q := Qat P ct1.level
    let d0 := polyMul _ ct1.c0 ct2.c0
    let d1 := polyAdd _ (polyMul _ ct1.c0 ct2.c1) (polyMul _ ct1.c1 ct2.c0)
    let d2 := polyMul _ ct1.c1 ct2.c1
    .ok
      { c0 := pmod _ q (polyAdd _ d0 (polyMul _ d2 rk.b))
        c1 := pmod _ q (polyAdd _ d1 (polyMul _ d2 rk.a))
        scale := ct1.scale * ct2.scale
        level := ct1.level }

/-- Division by a modulus factor with rounding to nearest. -/
def roundDiv (a : ℤ) (p : ℕ) : ℤ := (2 * a + (p : ℤ)) / (2 * (p : ℤ))

/-- Modelled from the spec: `rescale ct` divides the coefficients by the next
modulus factor in the chain, drops one level and divides the scale by the
corresponding factor; it fails with `LevelExhausted` if `ct.level = 0`. -/
def rescale (P : CKKSParams) (ct : Ciphertext P) :
    Except CKKSError (Ciphertext P) :=
  if ct.level = 0 then .error .LevelExhausted
  else
    let p := P.moduli.getD ct.level 1
    .ok
      { c0 := fun k => roundDiv (ct.c0 k) p
        c1 := fun k => roundDiv (ct.c1 k) p
        scale := ct.scale / (p : ℚ)
        level := ct.level - 1 }

/-- Galois automorphism `X ↦ X ^ t` of `ℤ[X] / (X ^ N + 1)` acting on
coefficient vectors: the coefficient at `X ^ k` is carried to
`(-1) ^ (t k / N) * X ^ (t k % N)`. -/
def galois (N t : ℕ) (c : Fin N → ℤ) : Fin N → ℤ :=
  fun j => ∑ k : Fin N, if (t * (k : ℕ)) % N = (j : ℕ) then
    (-1) ^ ((t * (k : ℕ)) / N) * c k else 0

/-- Galois element used for a cyclic slot rotation by `step` positions. -/
def rotStep (P : CKKSParams) (step : ℕ) : ℕ := 5 ^ step % (2 * ringDim P)

/-- Modelled from the spec: `rotate ct step rk` cyclically permutes the slot
contents by `step` positions using the Galois-automorphism key-switch; level
and scale are unchanged. -/
def rotate (P : CKKSParams) (ct : Ciphertext P) (step : ℕ) (rk : EvalKey P) :
    Ciphertext P :=
  let t := rotStep P step
  let q := Qat P ct.level
  { c0 := pmod _ q (polyAdd _ (galois _ t ct.c0)
      (polyMul _ (galois _ t ct.c1) rk.b))
    c1 := pmod _ q (polyMul _ (galois _ t ct.c1) rk.a)
    scale := ct.scale
    level := ct.level }

/-- Modelled from the spec: the effect of `rotate` on the decoded slot
vector — a cyclic permutation of the `N / 2` slot contents by `s`
positions. -/
def rotateSlots (m : ℕ) (s : ℕ) (v : Fin m → ℂ) : Fin m → ℂ :=
  fun j => v ⟨((j : ℕ) + s) % m, Nat.mod_lt _ j.pos⟩

/-- Primitive `2 N`-th root of unity used by the canonical embedding. -/
noncomputable def xi (N : ℕ) : ℂ :=
  Complex.exp (((2 * Real.pi / (2 * N) : ℝ) : ℂ) * Complex.I)

/-- Forward canonical embedding: evaluate the polynomial at the odd powers
`xi ^ (2 j + 1)` of the primitive `2 N`-th root of unity. -/
noncomputable def sigmaFwd (N : ℕ) (c : Fin N → ℂ) : Fin N → ℂ :=
  fun j => ∑ k : Fin N, c k * xi N ^ ((2 * (j : ℕ) + 1) * (k : ℕ))

/-- Inverse canonical embedding (the inverse FFT-like transform over the
complex field used by `encode`). -/
noncomputable def sigmaInv (N : ℕ) (w : Fin N → ℂ) : Fin N → ℂ :=
  fun k => (∑ j : Fin N, w j * (xi N)⁻¹ ^ ((2 * (j : ℕ) + 1) * (k : ℕ))) / (N : ℂ)

/-- Conjugate-symmetric padding of an input vector of length at most `N / 2`
into the `N` embedding coordinates: unused slots are implicitly zero, and the
upper half mirrors the lower half conjugated so that the inverse embedding
has real coefficients. -/
def padSym (N : ℕ) (vs : List ℂ) : Fin N → ℂ :=
  fun j => if (j : ℕ) < N / 2 then vs.getD (j : ℕ) 0
    else (starRingEnd ℂ) (vs.getD (N - 1 - (j : ℕ)) 0)

/-- Modelled from the spec: the exact integer coefficients of `encode` before
modular reduction — inverse canonical embedding, each coefficient scaled by
`scale` and rounded to the nearest integer. -/
noncomputable def rawCoeff (N : ℕ) (vs : List ℂ) (Δ : ℚ) : Fin N → ℤ :=
  fun k => round ((Δ : ℝ) * (sigmaInv N (padSym N vs) k).re)

/-- Modelled from the spec: `encode values scale` applies the inverse
canonical embedding, scales each coefficient by `scale`, rounds to nearest
integer and reduces mod `Q_L` (freshest level); inputs longer than `N / 2`
fail with `SlotOverflow`, and unused slots are implicitly zero-padded. -/
noncomputable def encode (P : CKKSParams) (vs : List ℂ) (Δ : ℚ) :
    Except CKKSError (CKKSPlaintext P) :=
  if vs.length > slotCount P then .error .SlotOverflow
  else .ok
    { coeffs := pmod _ (Qat P (topLevel P)) (rawCoeff (ringDim P) vs Δ)
      scale := Δ
      level := topLevel P }

/-- Modelled from the spec: `decode pt` applies the forward canonical
embedding and divides by `pt.scale`, returning `N / 2` complex numbers. -/
noncomputable def decode (P : CKKSParams) (pt : CKKSPlaintext P) :
    Fin (slotCount P) → ℂ :=
  fun j => sigmaFwd (ringDim P) (fun k => ((pt.coeffs k : ℤ) : ℂ))
    (Fin.castLE (Nat.div_le_self _ _) j) / ((pt.scale : ℚ) : ℂ)

/-- Modelled from the spec: the noise polynomial left over by a fresh
encrypt-then-decrypt round trip, `e * u + e0 + e1 * s`, in terms of the
key-generation error `e`, the ephemeral randomness `u`, the encryption
errors `e0, e1` and the secret key `s`. -/
def noisePoly (P : CKKSParams) (e u e0 e1 s : Fin (ringDim P) → ℤ) :
    Fin (ringDim P) → ℤ :=
  polyAdd _ (polyAdd _ (polyMul _ e u) e0) (polyMul _ e1 s)

/-- Plaintext invariant from the spec: scale is strictly positive and the
level lies within the modulus chain. -/
def ptInv (P : CKKSParams) (pt : CKKSPlaintext P) : Prop :=
  0 < pt.scale ∧ pt.level ≤ topLevel P

/-- Ciphertext counterpart of the plaintext invariant. -/
def ctInv (P : CKKSParams) (ct : Ciphertext P) : Prop :=
  0 < ct.scale ∧ ct.level ≤ topLevel P

instance (P : CKKSParams) (pt : CKKSPlaintext P) : Decidable (ptInv P pt) :=
  inferInstanceAs (Decidable (_ ∧ _))

instance (P : CKKSParams) (ct : Ciphertext P) : Decidable (ctInv P ct) :=
  inferInstanceAs (Decidable (_ ∧ _))

/-- A concrete well-formed parameter set (`N = 2`, chain `[5, 3]`) used to
evaluate the model on closed inputs. -/
def P0 : CKKSParams := ⟨1, [5, 3]⟩

/-- The all-zero ciphertext at a given scale and level. -/
def zeroC (P : CKKSParams) (scale : ℚ) (level : ℕ) : Ciphertext P :=
  ⟨fun _ => 0, fun _ => 0, scale, level⟩

/-- The all-zero plaintext at a given scale and level. -/
def zeroPt (P : CKKSParams) (scale : ℚ) (level : ℕ) : CKKSPlaintext P :=
  ⟨fun _ => 0, scale, level⟩

/-- The all-zero secret key. -/
def zeroSK (P : CKKSParams) : SecretKey P := ⟨fun _ => 0⟩

/-- The all-zero public key. -/
def zeroPK (P : CKKSParams) : PublicKey P := ⟨fun _ => 0, fun _ => 0⟩

/-- The all-zero evaluation key. -/
def zeroEK (P : CKKSParams) : EvalKey P := ⟨fun _ => 0, fun _ => 0⟩

/-- The plaintext produced by encoding the one-slot vector `[0]` at scale 1
under the sample parameter set. -/
noncomputable def pt0 : CKKSPlaintext P0 :=
  { coeffs := pmod (ringDim P0) (Qat P0 (topLevel P0))
      (rawCoeff (ringDim P0) [0] 1)
    scale := 1
    level := topLevel P0 }

end CKKS

namespace DefenseInit

/-- A Python `from <module> import <names>` statement, the only statement
form appearing in the package initializer. -/
inductive PyStmt
  | fromImport (module : String) (names : List String)
deriving DecidableEq

/-- The names a statement binds in the package namespace. -/
def stmtNames : PyStmt → List String
  | .fromImport _ ns => ns

/-- The submodule a statement imports from. -/
def stmtModule : PyStmt → String
  | .fromImport m _ => m

/-- Shallow embedding of `src/aijack/defense/init`: its four
`from ... import ...` statements, transcribed in order. -/
def defenseInitStmts : List PyStmt :=
  [ .fromImport ".ckks" ["CKKSEncoder", "CKKSEncrypter", "CKKSPlaintext"]
  , .fromImport ".dp" ["GeneralMomentAccountant", "PrivacyManager"]
  , .fromImport ".purifier" ["Purifier_Cifar10", "PurifierLoss"]
  , .fromImport ".setoria" ["SetoriaFedAvgClient"] ]

/-- All names bound by a list of import statements. -/
def boundNames (prog : List PyStmt) : List String := (prog.map stmtNames).flatten

/-- Python import semantics for the initializer: statements run in order;
a `from`-import of a submodule that fails to load raises, aborting the whole
package import (no later statement runs, no name is bound); if every
submodule loads, the package import succeeds with all names bound. -/
def runInit (avail : String → Bool) : List PyStmt → Except String (List String)
  | [] => .ok []
  | s :: rest =>
      if avail (stmtModule s) then
        (runInit avail rest).map (fun ns => stmtNames s ++ ns)
      else .error (stmtModule s)

end DefenseInit

namespace CKKS

/-- C3: for every ciphertext `ct`, `rescale ct` strictly decreases the level
by exactly 1 and divides the scale by the corresponding modulus factor, and
`rescale` fails with `LevelExhausted` if and only if `ct.level = 0`, the
error being returned to the caller. -/
theorem C3_rescale_level_monotone (P : CKKSParams) (ct : Ciphertext P) :
    (∀ ct', rescale P ct = .ok ct' →
      ct'.level + 1 = ct.level ∧
      ct'.scale = ct.scale / ((P.moduli.getD ct.level 1 : ℕ) : ℚ)) ∧
    (rescale P ct = .error .LevelExhausted ↔ ct.level = 0) := by
  unfold rescale
  by_cases h : ct.level = 0
  · simp [h]
  · simp [h]
    omega

/-- C3 witness: at level 0 the model's `rescale` reports `LevelExhausted`. -/
theorem C3_witness :
    rescale P0 (zeroC P0 1 0) = Except.error CKKSError.LevelExhausted :=
  (C3_rescale_level_monotone P0 (zeroC P0 1 0)).2.mpr rfl

/-- C4: `add ct1 ct2` succeeds, performing coefficient-wise modular
addition, exactly when the two ciphertexts agree in level and in scale;
otherwise it fails with `LevelMismatch` (levels differ) or `ScaleMismatch`
(scales differ), and no other error is possible. -/
theorem C4_add_alignment (P : CKKSParams) (ct1 ct2 : Ciphertext P) :
    ((∃ ct', add P ct1 ct2 = .ok ct') ↔
      (ct1.level = ct2.level ∧ ct1.scale = ct2.scale)) ∧
    (ct1.level = ct2.level → ct1.scale = ct2.scale →
      add P ct1 ct2 = .ok
        { c0 := pmod _ (Qat P ct1.level) (polyAdd _ ct1.c0 ct2.c0)
          c1 := pmod _ (Qat P ct1.level) (polyAdd _ ct1.c1 ct2.c1)
          scale := ct1.scale
          level := ct1.level }) ∧
    (ct1.level ≠ ct2.level → add P ct1 ct2 = .error .LevelMismatch) ∧
    (ct1.level = ct2.level → ct1.scale ≠ ct2.scale →
      add P ct1 ct2 = .error .ScaleMismatch) := by
  unfold add
  by_cases h1 : ct1.level = ct2.level
  · by_cases h2 : ct1.scale = ct2.scale
    · simp [h1, h2]
    · simp [h1, h2]
  · simp [h1]

/-- C4 witness: mismatched levels are reported as `LevelMismatch` on a
concrete pair. -/
theorem C4_witness :
    add P0 (zeroC P0 1 1) (zeroC P0 1 0) = Except.error CKKSError.LevelMismatch :=
  (C4_add_alignment P0 (zeroC P0 1 1) (zeroC P0 1 0)).2.2.1 (by decide)

/-- C5 counterexample: two ciphertexts at the same level 0 are rejected with
`LevelExhausted` (as the spec's error taxonomy requires), so `multiply` does
not return a product ciphertext for every same-level pair. -/
theorem C5_counterexample :
    multiply P0 (zeroC P0 1 0) (zeroC P0 1 0) (zeroEK P0) =
      Except.error CKKSError.LevelExhausted ∧
    ∀ ct', multiply P0 (zeroC P0 1 0) (zeroC P0 1 0) (zeroEK P0) ≠
      Except.ok ct' := by
  constructor
  · rfl
  · intro ct' h
    exact absurd h (by simp [multiply, zeroC])

/-- C5 (amended): for every pair of ciphertexts at the same nonzero level,
`multiply` returns a ciphertext whose scale is the product of the two input
scales and whose level equals the unchanged input level; no rescaling is
performed as part of `multiply`. -/
theorem C5_multiply_scale_product (P : CKKSParams) (ct1 ct2 : Ciphertext P)
    (rk : EvalKey P) (hlev : ct1.level = ct2.level) (hnz : ct1.level ≠ 0) :
    ∃ ct', multiply P ct1 ct2 rk = .ok ct' ∧
      ct'.scale = ct1.scale * ct2.scale ∧ ct'.level = ct1.level := by
  unfold multiply
  rw [if_neg (not_ne_iff.mpr hlev), if_neg hnz]
  exact ⟨_, rfl, rfl, rfl⟩

/-- C5 witness: at level 1 the amended statement evaluates on a concrete
pair of ciphertexts. -/
theorem C5_witness :
    ∃ ct', multiply P0 (zeroC P0 2 1) (zeroC P0 3 1) (zeroEK P0) = .ok ct' ∧
      ct'.scale = 2 * 3 ∧ ct'.level = 1 :=
  C5_multiply_scale_product P0 (zeroC P0 2 1) (zeroC P0 3 1) (zeroEK P0)
    rfl (by decide)

/-- C7: `encode values scale` fails with `SlotOverflow` exactly when the
input holds more than `N / 2` values; shorter inputs succeed (producing a
plaintext at the freshest level carrying the requested scale), and the
unused slots of the embedding are implicitly padded with zero. -/
theorem C7_encode_slot_overflow (P : CKKSParams) (vs : List ℂ) (Δ : ℚ) :
    (encode P vs Δ = .error .SlotOverflow ↔ vs.length > slotCount P) ∧
    (vs.length ≤ slotCount P →
      ∃ pt, encode P vs Δ = .ok pt ∧ pt.level = topLevel P ∧ pt.scale = Δ) ∧
    (∀ j : Fin (ringDim P), vs.length ≤ (j : ℕ) → (j : ℕ) < slotCount P →
      padSym (ringDim P) vs j = 0) := by
  refine ⟨?_, ?_, ?_⟩
  · unfold encode
    by_cases h : vs.length > slotCount P <;> simp [h]
  · intro h
    unfold encode
    simp [Nat.not_lt.mpr h]
  · intro j hlen hslot
    unfold padSym
    rw [if_pos (show (j : ℕ) < ringDim P / 2 from hslot),
      List.getD_eq_default _ _ hlen]

/-- C7 witness: a three-element input overflows the single slot of the
concrete parameter set and is rejected. -/
theorem C7_witness :
    encode P0 [0, 0, 0] 1 = Except.error CKKSError.SlotOverflow :=
  (C7_encode_slot_overflow P0 [0, 0, 0] 1).1.mpr (by decide)

/-- C8: with a well-formed parameter set, every plaintext or ciphertext
produced or transformed by the pipeline operations (encode, encrypt,
decrypt, add, multiply, rescale, rotate) satisfies the invariant that its
scale is strictly positive and its level lies in `[0, L]`, given that the
operation's inputs do. -/
theorem C8_pipeline_invariant (P : CKKSParams) (hwf : ParamsWF P) :
    (∀ vs Δ pt, 0 < Δ → encode P vs Δ = .ok pt → ptInv P pt) ∧
    (∀ pt pk u e0 e1, ptInv P pt → ctInv P (encrypt P pt pk u e0 e1)) ∧
    (∀ ct sk, ctInv P ct → ptInv P (decrypt P ct sk)) ∧
    (∀ ct1 ct2 ct', ctInv P ct1 → add P ct1 ct2 = .ok ct' → ctInv P ct') ∧
    (∀ ct1 ct2 rk ct', ctInv P ct1 → ctInv P ct2 →
      multiply P ct1 ct2 rk = .ok ct' → ctInv P ct') ∧
    (∀ ct ct', ctInv P ct → rescale P ct = .ok ct' → ctInv P ct') ∧
    (∀ ct step rk, ctInv P ct → ctInv P (rotate P ct step rk)) := by
  obtain ⟨hlog, hlen, hprime, hcop, hdesc⟩ := hwf
  refine ⟨?_, ?_, ?_, ?_, ?_, ?_, ?_⟩
  · intro vs Δ pt hΔ henc
    unfold encode at henc
    by_cases h : vs.length > slotCount P
    · simp [h] at henc
    · simp [h] at henc
      cases henc
      exact ⟨hΔ, le_refl _⟩
  · intro pt pk u e0 e1 hpt
    exact ⟨hpt.1, hpt.2⟩
  · intro ct sk hct
    exact ⟨hct.1, hct.2⟩
  · intro ct1 ct2 ct' h1 hadd
    unfold add at hadd
    by_cases hl : ct1.level = ct2.level
    · by_cases hs : ct1.scale = ct2.scale
      · rw [if_neg (not_ne_iff.mpr hl), if_neg (not_ne_iff.mpr hs)] at hadd
        simp only [Except.ok.injEq] at hadd
        subst hadd
        exact ⟨h1.1, h1.2⟩
      · rw [if_neg (not_ne_iff.mpr hl), if_pos hs] at hadd
        exact absurd hadd (by simp)
    · rw [if_pos hl] at hadd
      exact absurd hadd (by simp)
  · intro ct1 ct2 rk ct' h1 h2 hmul
    unfold multiply at hmul
    by_cases hl : ct1.level = ct2.level
    · rw [if_neg (not_ne_iff.mpr hl)] at hmul
      by_cases hz : ct1.level = 0
      · rw [if_pos hz] at hmul
        exact absurd hmul (by simp)
      · rw [if_neg hz] at hmul
        simp only [Except.ok.injEq] at hmul
        subst hmul
        exact ⟨mul_pos h1.1 h2.1, h1.2⟩
    · rw [if_pos hl] at hmul
      exact absurd hmul (by simp)
  · intro ct ct' hct hres
    unfold rescale at hres
    by_cases hz : ct.level = 0
    · rw [if_pos hz] at hres
      exact absurd hres (by simp)
    · rw [if_neg hz] at hres
      simp only [Except.ok.injEq] at hres
      subst hres
      have hlevL : ct.level ≤ topLevel P := hct.2
      have hlt : ct.level < P.moduli.length := by
        unfold topLevel at hlevL
        omega
      refine ⟨div_pos hct.1 ?_, ?_⟩
      · have hmem : P.moduli.getD ct.level 1 ∈ P.moduli := by
          rw [List.getD_eq_getElem _ _ hlt]
          exact List.getElem_mem _
        have h2le := (hprime _ hmem).two_le
        exact_mod_cast Nat.lt_of_lt_of_le Nat.zero_lt_two h2le
      · show ct.level - 1 ≤ topLevel P
        omega
  · intro ct step rk hct
    exact ⟨hct.1, hct.2⟩

/-- The sample parameter set is well-formed. -/
theorem P0_wf : ParamsWF P0 := by
  refine ⟨by norm_num [P0], by norm_num [P0], ?_, ?_, ?_⟩
  · intro q hq
    simp [P0] at hq
    rcases hq with rfl | rfl <;> norm_num
  · simp [P0, List.pairwise_cons]
    norm_num [Nat.coprime_primes]
  · simp [P0, List.chain'_cons]

/-- C8 witness: the invariant theorem evaluates on a concrete decrypt call
at the sample parameter set. -/
theorem C8_witness :
    ptInv P0 (decrypt P0 (zeroC P0 1 1) (zeroSK P0)) :=
  (C8_pipeline_invariant P0 P0_wf).2.2.1 (zeroC P0 1 1) (zeroSK P0)
    (by decide)

end CKKS

namespace DefenseInit

/-- C9: importing the `aijack.defense` package binds exactly the eight
public names listed in its initializer — the three CKKS types from `ckks`,
the two differential-privacy names from `dp`, the two purifier names from
`purifier` and the federated client from `setoria` — and no other name; in
particular no ciphertext, secret-key, public-key or evaluation-key type is
exported at this surface. -/
theorem C9_defense_export_surface :
    boundNames defenseInitStmts =
      ["CKKSEncoder", "CKKSEncrypter", "CKKSPlaintext",
       "GeneralMomentAccountant", "PrivacyManager",
       "Purifier_Cifar10", "PurifierLoss", "SetoriaFedAvgClient"] ∧
    "Ciphertext" ∉ boundNames defenseInitStmts ∧
    "SecretKey" ∉ boundNames defenseInitStmts ∧
    "PublicKey" ∉ boundNames defenseInitStmts ∧
    "EvaluationKey" ∉ boundNames defenseInitStmts := by
  decide

/-- C10: the package import succeeds exactly when all four submodules load;
whenever it succeeds the CKKS names are bound, and a failure of any
submodule aborts the package import, so the CKKS types become unavailable
through this surface as well. -/
theorem C10_import_all_or_nothing (avail : String → Bool) :
    ((∃ ns, runInit avail defenseInitStmts = .ok ns) ↔
      (avail ".ckks" ∧ avail ".dp" ∧ avail ".purifier" ∧ avail ".setoria")) ∧
    (∀ ns, runInit avail defenseInitStmts = .ok ns →
      "CKKSEncoder" ∈ ns ∧ "CKKSEncrypter" ∈ ns ∧ "CKKSPlaintext" ∈ ns) := by
  cases h1 : avail ".ckks" <;> cases h2 : avail ".dp" <;>
    cases h3 : avail ".purifier" <;> cases h4 : avail ".setoria" <;>
      simp [runInit, defenseInitStmts, stmtModule, stmtNames, Except.map,
        h1, h2, h3, h4]

/-- C10 witness: with every submodule available the package import succeeds
on the transcribed initializer. -/
theorem C10_witness :
    ∃ ns, runInit (fun _ => true) defenseInitStmts = .ok ns :=
  (C10_import_all_or_nothing (fun _ => true)).1.mpr ⟨rfl, rfl, rfl, rfl⟩

end DefenseInit

namespace CKKS

/-- Centered reduction is congruent to its argument. -/
theorem cmod_modEq (a : ℤ) (q : ℕ) : cmod a q ≡ a [ZMOD (q : ℤ)] := by
  unfold cmod
  have h1 : (a + (q : ℤ) / 2) % (q : ℤ) ≡ a + (q : ℤ) / 2 [ZMOD (q : ℤ)] := by
    unfold Int.ModEq
    exact Int.emod_emod_of_dvd _ dvd_rfl
  simpa using h1.sub_right ((q : ℤ) / 2)

/-- Centered reduction respects congruence. -/
theorem cmod_congr {a b : ℤ} {q : ℕ} (h : a ≡ b [ZMOD (q : ℤ)]) :
    cmod a q = cmod b q := by
  unfold cmod
  have h2 : (a + (q : ℤ) / 2) % (q : ℤ) = (b + (q : ℤ) / 2) % (q : ℤ) :=
    h.add_right ((q : ℤ) / 2)
  rw [h2]

/-- Centered reduction fixes representatives that are small enough. -/
theorem cmod_eq_self {a : ℤ} {q : ℕ} (h : 2 * a.natAbs < q) : cmod a q = a := by
  unfold cmod
  rw [Int.emod_eq_of_lt (by omega) (by omega)]
  omega

/-- Congruence is preserved by finite sums. -/
theorem sum_modEq {ι : Type} {s : Finset ι} {f g : ι → ℤ} {n : ℤ}
    (h : ∀ i ∈ s, f i ≡ g i [ZMOD n]) :
    (∑ i ∈ s, f i) ≡ (∑ i ∈ s, g i) [ZMOD n] := by
  classical
  induction s using Finset.induction_on with
  | empty => simp
  | insert hx ih =>
      rw [Finset.sum_insert hx, Finset.sum_insert hx]
      exact (h _ (Finset.mem_insert_self _ _)).add
        (ih fun i hi => h i (Finset.mem_insert_of_mem hi))

/-- Coefficient-wise reduction is congruent to the unreduced element. -/
theorem pmod_modEq (N q : ℕ) (c : Fin N → ℤ) (k : Fin N) :
    pmod N q c k ≡ c k [ZMOD (q : ℤ)] :=
  cmod_modEq _ _

/-- Negacyclic convolution respects congruence in its left argument. -/
theorem polyMul_congr_left {N q : ℕ} {c c' : Fin N → ℤ} (u : Fin N → ℤ)
    (h : ∀ m, c m ≡ c' m [ZMOD (q : ℤ)]) (k : Fin N) :
    polyMul N c u k ≡ polyMul N c' u k [ZMOD (q : ℤ)] := by
  unfold polyMul
  refine sum_modEq fun i _ => sum_modEq fun j _ => ?_
  exact ((h i).mul_right (u j)).mul_right _

/-- Convolution distributes over addition in its left argument. -/
theorem polyMul_add_left (N : ℕ) (b c u : Fin N → ℤ) :
    polyMul N (polyAdd N b c) u = polyAdd N (polyMul N b u) (polyMul N c u) := by
  funext k
  unfold polyMul polyAdd
  rw [← Finset.sum_add_distrib]
  refine Finset.sum_congr rfl fun i _ => ?_
  rw [← Finset.sum_add_distrib]
  refine Finset.sum_congr rfl fun j _ => ?_
  ring

/-- Convolution commutes with negation in its left argument. -/
theorem polyMul_neg_left (N : ℕ) (b u : Fin N → ℤ) :
    polyMul N (polyNeg N b) u = polyNeg N (polyMul N b u) := by
  funext k
  unfold polyMul polyNeg
  rw [← Finset.sum_neg_distrib]
  refine Finset.sum_congr rfl fun i _ => ?_
  rw [← Finset.sum_neg_distrib]
  refine Finset.sum_congr rfl fun j _ => ?_
  ring

/-- Composition law of the negacyclic monomial kernel: reducing `X ^ t` and
then multiplying by `X ^ l` agrees with reducing `X ^ (t + l)`. -/
theorem twist_comp (N : ℕ) (hN : 0 < N) (t l k : ℕ) :
    (∑ m : Fin N, twist N t (m : ℕ) * twist N ((m : ℕ) + l) k) =
      twist N (t + l) k := by
  have hmod : t % N < N := Nat.mod_lt _ hN
  have hdiv : (t + l) / N = t / N + (t % N + l) / N := by
    conv_lhs => rw [← Nat.div_add_mod t N, Nat.add_assoc]
    rw [Nat.mul_add_div hN]
  rw [Finset.sum_eq_single_of_mem ⟨t % N, hmod⟩ (Finset.mem_univ _)]
  · show twist N t (t % N) * twist N (t % N + l) k = twist N (t + l) k
    unfold twist
    rw [if_pos rfl]
    by_cases hk : (t + l) % N = k
    · rw [if_pos (by rw [Nat.mod_add_mod]; exact hk), if_pos hk, ← pow_add]
      congr 1
      omega
    · rw [if_neg (by rw [Nat.mod_add_mod]; exact hk), if_neg hk, mul_zero]
  · intro m _ hm
    have hne : t % N ≠ (m : ℕ) := fun h => hm ((Fin.ext h).symm)
    unfold twist
    rw [if_neg hne, zero_mul]

/-- Triple-product normal form of an associated pair of convolutions. -/
theorem polyMul_triple (N : ℕ) (hN : 0 < N) (a b c : Fin N → ℤ) (k : Fin N) :
    polyMul N (polyMul N a b) c k =
      ∑ i : Fin N, ∑ j : Fin N, ∑ l : Fin N,
        a i * b j * c l * twist N ((i : ℕ) + (j : ℕ) + (l : ℕ)) (k : ℕ) := by
  have hrw : ∀ (i j l : Fin N),
      a i * b j * c l * twist N ((i : ℕ) + (j : ℕ) + (l : ℕ)) (k : ℕ) =
        ∑ m : Fin N, a i * b j * c l *
          (twist N ((i : ℕ) + (j : ℕ)) (m : ℕ) *
            twist N ((m : ℕ) + (l : ℕ)) (k : ℕ)) := by
    intro i j l
    rw [← Finset.mul_sum, twist_comp N hN]
  simp only [hrw]
  unfold polyMul
  simp only [Finset.sum_mul]
  conv_lhs => rw [Finset.sum_comm]
  conv_lhs => enter [2, n]; rw [Finset.sum_comm]
  conv_lhs => enter [2, n, 2, i]; rw [Finset.sum_comm]
  conv_lhs => rw [Finset.sum_comm]
  conv_lhs => enter [2, i]; rw [Finset.sum_comm]
  refine Finset.sum_congr rfl fun i _ => Finset.sum_congr rfl fun j _ =>
    Finset.sum_congr rfl fun l _ => Finset.sum_congr rfl fun m _ => ?_
  ring

/-- The secret-key and randomness factors of an associated triple product
commute: `(a * s) * u = (a * u) * s` in the negacyclic ring. -/
theorem polyMul_swap (N : ℕ) (hN : 0 < N) (a s u : Fin N → ℤ) :
    polyMul N (polyMul N a s) u = polyMul N (polyMul N a u) s := by
  funext k
  rw [polyMul_triple N hN a s u k, polyMul_triple N hN a u s k]
  refine Finset.sum_congr rfl fun i _ => ?_
  rw [Finset.sum_comm]
  refine Finset.sum_congr rfl fun l _ => Finset.sum_congr rfl fun j _ => ?_
  have h : (i : ℕ) + (j : ℕ) + (l : ℕ) = (i : ℕ) + (l : ℕ) + (j : ℕ) := by omega
  rw [h]
  ring

/-- The modulus at any level divides the freshest modulus. -/
theorem Qat_dvd_top (P : CKKSParams) {l : ℕ} (h : l ≤ topLevel P) :
    ((Qat P l : ℕ) : ℤ) ∣ ((Qat P (topLevel P) : ℕ) : ℤ) := by
  have hn : Qat P l ∣ Qat P (topLevel P) := by
    unfold Qat
    have htake : (P.moduli.take (topLevel P + 1)).take (l + 1) =
        P.moduli.take (l + 1) := by
      rw [List.take_take]
      congr 1
      omega
    conv_rhs => rw [← List.take_append_drop (l + 1) (P.moduli.take (topLevel P + 1))]
    rw [List.prod_append, htake]
    exact dvd_mul_right _ _
  exact_mod_cast hn

end CKKS

namespace CKKS

/-- The ring dimension is positive. -/
theorem ringDim_pos (P : CKKSParams) : 0 < ringDim P := by
  unfold ringDim
  positivity

/-- C2: for every plaintext and every matching key pair, decrypting the
encryption of the plaintext recovers it up to the small noise polynomial
`e * u + e0 + e1 * s` (so within any bound `B` on that noise), and the
decrypted plaintext carries exactly the level and the scale of the
ciphertext it came from. -/
theorem C2_encrypt_decrypt_roundtrip (P : CKKSParams) (pt : CKKSPlaintext P)
    (sk : SecretKey P) (a e u e0 e1 : Fin (ringDim P) → ℤ) (B : ℕ)
    (hlev : pt.level ≤ topLevel P)
    (hsmall : ∀ k, 2 * (pt.coeffs k + noisePoly P e u e0 e1 sk.s k).natAbs
      < Qat P pt.level)
    (hB : ∀ k, (noisePoly P e u e0 e1 sk.s k).natAbs ≤ B) :
    (∀ k, (decrypt P (encrypt P pt (generate_public_key P sk a e) u e0 e1)
        sk).coeffs k = pt.coeffs k + noisePoly P e u e0 e1 sk.s k) ∧
    (∀ k, ((decrypt P (encrypt P pt (generate_public_key P sk a e) u e0 e1)
        sk).coeffs k - pt.coeffs k).natAbs ≤ B) ∧
    (decrypt P (encrypt P pt (generate_public_key P sk a e) u e0 e1) sk).level
      = (encrypt P pt (generate_public_key P sk a e) u e0 e1).level ∧
    (decrypt P (encrypt P pt (generate_public_key P sk a e) u e0 e1) sk).scale
      = (encrypt P pt (generate_public_key P sk a e) u e0 e1).scale := by
  have hN : 0 < ringDim P := ringDim_pos P
  have hmain : ∀ k,
      (decrypt P (encrypt P pt (generate_public_key P sk a e) u e0 e1)
        sk).coeffs k = pt.coeffs k + noisePoly P e u e0 e1 sk.s k := by
    intro k
    have hring : polyAdd (ringDim P)
        (polyAdd (ringDim P)
          (polyAdd (ringDim P)
            (polyMul (ringDim P)
              (polyAdd (ringDim P) (polyNeg (ringDim P)
                (polyMul (ringDim P) a sk.s)) e) u) e0) pt.coeffs)
        (polyMul (ringDim P)
          (polyAdd (ringDim P) (polyMul (ringDim P) a u) e1) sk.s)
        = polyAdd (ringDim P) pt.coeffs (noisePoly P e u e0 e1 sk.s) := by
      rw [polyMul_add_left, polyMul_neg_left, polyMul_swap _ hN a sk.s u,
        polyMul_add_left]
      funext m
      simp only [polyAdd, polyNeg, noisePoly, polyMul]
      ring
    have hpk : ∀ m,
        (generate_public_key P sk a e).b m ≡
          (polyAdd (ringDim P) (polyNeg (ringDim P)
            (polyMul (ringDim P) a sk.s)) e) m [ZMOD ((Qat P pt.level : ℕ) : ℤ)] :=
      fun m => (cmod_modEq _ _).of_dvd (Qat_dvd_top P hlev)
    have hc0 : ∀ m,
        (encrypt P pt (generate_public_key P sk a e) u e0 e1).c0 m ≡
          (polyAdd (ringDim P)
            (polyAdd (ringDim P)
              (polyMul (ringDim P)
                (polyAdd (ringDim P) (polyNeg (ringDim P)
                  (polyMul (ringDim P) a sk.s)) e) u) e0) pt.coeffs) m
          [ZMOD ((Qat P pt.level : ℕ) : ℤ)] := by
      intro m
      refine (pmod_modEq _ _ _ m).trans ?_
      exact (((polyMul_congr_left u hpk m).add_right (e0 m)).add_right
        (pt.coeffs m))
    have hc1 : ∀ m,
        (encrypt P pt (generate_public_key P sk a e) u e0 e1).c1 m ≡
          (polyAdd (ringDim P) (polyMul (ringDim P) a u) e1) m
          [ZMOD ((Qat P pt.level : ℕ) : ℤ)] :=
      fun m => pmod_modEq _ _ _ m
    have hchain :
        (polyAdd (ringDim P)
          (encrypt P pt (generate_public_key P sk a e) u e0 e1).c0
          (polyMul (ringDim P)
            (encrypt P pt (generate_public_key P sk a e) u e0 e1).c1 sk.s)) k ≡
          (polyAdd (ringDim P) pt.coeffs (noisePoly P e u e0 e1 sk.s)) k
          [ZMOD ((Qat P pt.level : ℕ) : ℤ)] := by
      have step1 := (hc0 k).add (polyMul_congr_left sk.s hc1 k)
      have step2 : (polyAdd (ringDim P)
          (polyAdd (ringDim P)
            (polyAdd (ringDim P)
              (polyMul (ringDim P)
                (polyAdd (ringDim P) (polyNeg (ringDim P)
                  (polyMul (ringDim P) a sk.s)) e) u) e0) pt.coeffs)
          (polyMul (ringDim P)
            (polyAdd (ringDim P) (polyMul (ringDim P) a u) e1) sk.s)) k =
          (polyAdd (ringDim P) pt.coeffs (noisePoly P e u e0 e1 sk.s)) k := by
        rw [hring]
      exact step2 ▸ step1
    calc (decrypt P (encrypt P pt (generate_public_key P sk a e) u e0 e1)
        sk).coeffs k
        = cmod ((polyAdd (ringDim P)
            (encrypt P pt (generate_public_key P sk a e) u e0 e1).c0
            (polyMul (ringDim P)
              (encrypt P pt (generate_public_key P sk a e) u e0 e1).c1
              sk.s)) k) (Qat P pt.level) := rfl
      _ = cmod ((polyAdd (ringDim P) pt.coeffs
            (noisePoly P e u e0 e1 sk.s)) k) (Qat P pt.level) :=
          cmod_congr hchain
      _ = pt.coeffs k + noisePoly P e u e0 e1 sk.s k :=
          cmod_eq_self (hsmall k)
  refine ⟨hmain, ?_, rfl, rfl⟩
  intro k
  rw [hmain k]
  have := hB k
  omega

/-- C2 witness: with the all-zero plaintext, keys and randomness at the
sample parameter set, the round trip is exact and the noise bound 0 holds. -/
theorem C2_witness :
    (∀ k, (decrypt P0 (encrypt P0 (zeroPt P0 1 1)
        (generate_public_key P0 (zeroSK P0) (fun _ => 0) (fun _ => 0))
        (fun _ => 0) (fun _ => 0) (fun _ => 0)) (zeroSK P0)).coeffs k
      = (zeroPt P0 1 1).coeffs k +
        noisePoly P0 (fun _ => 0) (fun _ => 0) (fun _ => 0) (fun _ => 0)
          (zeroSK P0).s k) ∧
    (∀ k, ((decrypt P0 (encrypt P0 (zeroPt P0 1 1)
        (generate_public_key P0 (zeroSK P0) (fun _ => 0) (fun _ => 0))
        (fun _ => 0) (fun _ => 0) (fun _ => 0)) (zeroSK P0)).coeffs k
      - (zeroPt P0 1 1).coeffs k).natAbs ≤ 0) ∧
    (decrypt P0 (encrypt P0 (zeroPt P0 1 1)
        (generate_public_key P0 (zeroSK P0) (fun _ => 0) (fun _ => 0))
        (fun _ => 0) (fun _ => 0) (fun _ => 0)) (zeroSK P0)).level
      = (encrypt P0 (zeroPt P0 1 1)
        (generate_public_key P0 (zeroSK P0) (fun _ => 0) (fun _ => 0))
        (fun _ => 0) (fun _ => 0) (fun _ => 0)).level ∧
    (decrypt P0 (encrypt P0 (zeroPt P0 1 1)
        (generate_public_key P0 (zeroSK P0) (fun _ => 0) (fun _ => 0))
        (fun _ => 0) (fun _ => 0) (fun _ => 0)) (zeroSK P0)).scale
      = (encrypt P0 (zeroPt P0 1 1)
        (generate_public_key P0 (zeroSK P0) (fun _ => 0) (fun _ => 0))
        (fun _ => 0) (fun _ => 0) (fun _ => 0)).scale :=
  C2_encrypt_decrypt_roundtrip P0 (zeroPt P0 1 1) (zeroSK P0)
    (fun _ => 0) (fun _ => 0) (fun _ => 0) (fun _ => 0) (fun _ => 0) 0
    (by decide) (by decide) (by decide)

end CKKS

namespace CKKS

/-- A power of minus one only depends on the parity of the exponent. -/
theorem neg_one_pow_mod_two (n : ℕ) : (-1 : ℤ) ^ n = (-1 : ℤ) ^ (n % 2) := by
  conv_lhs => rw [← Nat.div_add_mod n 2]
  rw [pow_add, pow_mul]
  norm_num

/-- Multiplying an exponent by an odd factor does not change a power of
minus one. -/
theorem neg_one_pow_odd_mul (t u : ℕ) (ht : t % 2 = 1) :
    (-1 : ℤ) ^ (t * u) = (-1 : ℤ) ^ u := by
  rw [neg_one_pow_mod_two (t * u), Nat.mul_mod, ht, one_mul,
    Nat.mod_mod_of_dvd u dvd_rfl, ← neg_one_pow_mod_two]

/-- The Galois action only depends on the Galois element modulo `2 N`. -/
theorem galois_mod (N t : ℕ) (hN : 0 < N) (c : Fin N → ℤ) :
    galois N (t % (2 * N)) c = galois N t c := by
  funext j
  unfold galois
  refine Finset.sum_congr rfl fun k _ => ?_
  have hidx : (t % (2 * N) * (k : ℕ)) % N = (t * (k : ℕ)) % N := by
    rw [Nat.mul_mod, Nat.mod_mod_of_dvd t (dvd_mul_left N 2), ← Nat.mul_mod]
  have hdecomp : t * (k : ℕ) =
      (t % (2 * N)) * (k : ℕ) + N * (2 * ((k : ℕ) * (t / (2 * N)))) := by
    conv_lhs => rw [← Nat.mod_add_div t (2 * N)]
    ring
  have hsign : (t * (k : ℕ)) / N =
      ((t % (2 * N)) * (k : ℕ)) / N + 2 * ((k : ℕ) * (t / (2 * N))) := by
    rw [hdecomp, Nat.add_mul_div_left _ _ hN]
  rw [hidx, hsign, pow_add, pow_mul]
  norm_num

/-- Composition of two Galois actions with odd outer element is the Galois
action of the product element. -/
theorem galois_comp (N : ℕ) (hN : 0 < N) (t1 t2 : ℕ) (ht2 : t2 % 2 = 1)
    (c : Fin N → ℤ) :
    galois N t2 (galois N t1 c) = galois N (t2 * t1) c := by
  funext j
  unfold galois
  have hpush : ∀ m : Fin N,
      (if (t2 * (m : ℕ)) % N = (j : ℕ) then
        (-1 : ℤ) ^ ((t2 * (m : ℕ)) / N) *
          (∑ k : Fin N, if (t1 * (k : ℕ)) % N = (m : ℕ) then
            (-1 : ℤ) ^ ((t1 * (k : ℕ)) / N) * c k else 0) else 0)
        = ∑ k : Fin N,
          (if (t2 * (m : ℕ)) % N = (j : ℕ) then
            (if (t1 * (k : ℕ)) % N = (m : ℕ) then
              (-1 : ℤ) ^ ((t2 * (m : ℕ)) / N) *
                ((-1 : ℤ) ^ ((t1 * (k : ℕ)) / N) * c k) else 0) else 0) := by
    intro m
    by_cases h : (t2 * (m : ℕ)) % N = (j : ℕ)
    · rw [if_pos h, Finset.mul_sum]
      refine Finset.sum_congr rfl fun k _ => ?_
      rw [if_pos h]
      by_cases h2 : (t1 * (k : ℕ)) % N = (m : ℕ)
      · rw [if_pos h2, if_pos h2]
      · rw [if_neg h2, if_neg h2, mul_zero]
    · rw [if_neg h]
      symm
      refine Finset.sum_eq_zero fun k _ => ?_
      rw [if_neg h]
  simp only [hpush]
  rw [Finset.sum_comm]
  refine Finset.sum_congr rfl fun k _ => ?_
  have hmlt : (t1 * (k : ℕ)) % N < N := Nat.mod_lt _ hN
  rw [Finset.sum_eq_single_of_mem ⟨(t1 * (k : ℕ)) % N, hmlt⟩
    (Finset.mem_univ _) ?_]
  · show (if (t2 * ((t1 * (k : ℕ)) % N)) % N = (j : ℕ) then
        (if (t1 * (k : ℕ)) % N = (t1 * (k : ℕ)) % N then
          (-1 : ℤ) ^ ((t2 * ((t1 * (k : ℕ)) % N)) / N) *
            ((-1 : ℤ) ^ ((t1 * (k : ℕ)) / N) * c k) else 0) else 0) = _
    rw [if_pos rfl]
    have hu : N * ((t1 * (k : ℕ)) / N) + (t1 * (k : ℕ)) % N = t1 * (k : ℕ) :=
      Nat.div_add_mod _ _
    have hassoc : t2 * t1 * (k : ℕ) =
        N * (t2 * ((t1 * (k : ℕ)) / N)) + t2 * ((t1 * (k : ℕ)) % N) := by
      conv_lhs => rw [mul_assoc, ← hu]
      ring
    have hcond : (t2 * ((t1 * (k : ℕ)) % N)) % N = (t2 * t1 * (k : ℕ)) % N := by
      rw [hassoc, Nat.mul_add_mod]
    have hdiv2 : (t2 * t1 * (k : ℕ)) / N =
        t2 * ((t1 * (k : ℕ)) / N) + (t2 * ((t1 * (k : ℕ)) % N)) / N := by
      rw [hassoc, Nat.mul_add_div hN]
    have hsign : (-1 : ℤ) ^ ((t2 * ((t1 * (k : ℕ)) % N)) / N) *
        (-1 : ℤ) ^ ((t1 * (k : ℕ)) / N) =
        (-1 : ℤ) ^ ((t2 * t1 * (k : ℕ)) / N) := by
      rw [hdiv2, pow_add, neg_one_pow_odd_mul t2 _ ht2, mul_comm]
    rw [hcond]
    by_cases hj : (t2 * t1 * (k : ℕ)) % N = (j : ℕ)
    · rw [if_pos hj, if_pos hj, ← mul_assoc, hsign]
    · rw [if_neg hj, if_neg hj]
  · intro b _ hb
    have hne : (t1 * (k : ℕ)) % N ≠ (b : ℕ) := by
      intro h
      exact hb ((Fin.ext h).symm)
    rw [if_neg hne, ite_self]

/-- Odd powers of five stay one modulo iterated powers of two: the order of
five modulo `2 ^ (k + 2)` divides `2 ^ k`. -/
theorem five_pow_two_pow (k : ℕ) : ∃ m, 5 ^ 2 ^ k = 1 + 2 ^ (k + 2) * m := by
  induction k with
  | zero => exact ⟨1, by norm_num⟩
  | succ n ih =>
      obtain ⟨m, hm⟩ := ih
      refine ⟨m + 2 ^ (n + 1) * m ^ 2, ?_⟩
      have hsq : 5 ^ 2 ^ (n + 1) = (5 ^ 2 ^ n) ^ 2 := by
        rw [pow_succ, pow_mul]
      rw [hsq, hm]
      ring

/-- The Galois element of a rotation is odd. -/
theorem rotStep_odd (P : CKKSParams) (s : ℕ) : rotStep P s % 2 = 1 := by
  unfold rotStep
  rw [Nat.mod_mod_of_dvd _ (dvd_mul_right 2 (ringDim P)), Nat.pow_mod]
  norm_num

/-- Powers of five modulo `2 N` are periodic with period `N / 2`. -/
theorem five_pow_mod_period (P : CKKSParams) (hlog : 1 ≤ P.logN) (m : ℕ) :
    5 ^ m % (2 * ringDim P) = 5 ^ (m % slotCount P) % (2 * ringDim P) := by
  have hlogsplit : P.logN = (P.logN - 1) + 1 := by omega
  have hhalf : slotCount P = 2 ^ (P.logN - 1) := by
    unfold slotCount ringDim
    conv_lhs => rw [hlogsplit]
    rw [pow_succ, Nat.mul_div_cancel _ (by norm_num)]
  have h2N : 2 * ringDim P = 2 ^ ((P.logN - 1) + 2) := by
    unfold ringDim
    conv_lhs => rw [hlogsplit]
    ring
  obtain ⟨w, hw⟩ := five_pow_two_pow (P.logN - 1)
  have hper : 5 ^ slotCount P % (2 * ringDim P) = 1 % (2 * ringDim P) := by
    rw [hhalf, h2N, hw, Nat.add_mul_mod_self_left]
  conv_lhs => rw [← Nat.div_add_mod m (slotCount P), pow_add, pow_mul]
  rw [Nat.mul_mod, Nat.pow_mod, hper, ← Nat.pow_mod, one_pow, ← Nat.mul_mod,
    one_mul]

/-- Composing two rotation Galois elements yields the Galois element of the
rotation by the sum of the steps, reduced modulo the slot count. -/
theorem rotStep_mul (P : CKKSParams) (hlog : 1 ≤ P.logN) (s1 s2 : ℕ) :
    (rotStep P s2 * rotStep P s1) % (2 * ringDim P) =
      rotStep P ((s1 + s2) % slotCount P) := by
  unfold rotStep
  rw [← Nat.mul_mod, ← pow_add, Nat.add_comm s2 s1,
    ← five_pow_mod_period P hlog]

/-- Cyclic slot rotations compose additively modulo the slot count. -/
theorem rotateSlots_comp (m s1 s2 : ℕ) (v : Fin m → ℂ) :
    rotateSlots m s2 (rotateSlots m s1 v) =
      rotateSlots m ((s1 + s2) % m) v := by
  funext j
  unfold rotateSlots
  congr 1
  apply Fin.ext
  show ((((j : ℕ) + s2) % m) + s1) % m = ((j : ℕ) + (s1 + s2) % m) % m
  rw [Nat.mod_add_mod, Nat.add_mod_mod]
  congr 1
  omega

end CKKS

namespace CKKS

/-- C6: every `rotate` leaves the ciphertext's level and scale unchanged,
and rotation is a group action on slots: the cyclic slot action specified
for `rotate` composes additively modulo `N / 2`, and the underlying Galois
automorphisms of two successive rotations compose into the Galois
automorphism of the single rotation by `(s1 + s2) mod N / 2`. -/
theorem C6_rotation_group_action (P : CKKSParams) (hlog : 1 ≤ P.logN) :
    (∀ (ct : Ciphertext P) (step : ℕ) (rk : EvalKey P),
      (rotate P ct step rk).level = ct.level ∧
      (rotate P ct step rk).scale = ct.scale) ∧
    (∀ (s1 s2 : ℕ) (v : Fin (slotCount P) → ℂ),
      rotateSlots (slotCount P) s2 (rotateSlots (slotCount P) s1 v) =
        rotateSlots (slotCount P) ((s1 + s2) % slotCount P) v) ∧
    (∀ (s1 s2 : ℕ) (c : Fin (ringDim P) → ℤ),
      galois (ringDim P) (rotStep P s2)
          (galois (ringDim P) (rotStep P s1) c) =
        galois (ringDim P) (rotStep P ((s1 + s2) % slotCount P)) c) := by
  refine ⟨fun ct step rk => ⟨rfl, rfl⟩,
    fun s1 s2 v => rotateSlots_comp _ _ _ v, ?_⟩
  intro s1 s2 c
  rw [galois_comp _ (ringDim_pos P) _ _ (rotStep_odd P s2) c]
  conv_lhs => rw [← galois_mod (ringDim P)
    (rotStep P s2 * rotStep P s1) (ringDim_pos P) c]
  rw [rotStep_mul P hlog s1 s2]

/-- C6 witness: the level and scale of a concrete rotated ciphertext are
unchanged. -/
theorem C6_witness :
    (rotate P0 (zeroC P0 1 1) 1 (zeroEK P0)).level = (zeroC P0 1 1).level ∧
    (rotate P0 (zeroC P0 1 1) 1 (zeroEK P0)).scale = (zeroC P0 1 1).scale :=
  (C6_rotation_group_action P0 (by decide)).1 (zeroC P0 1 1) 1 (zeroEK P0)

end CKKS

namespace CKKS

/-- The embedding root is a primitive `2 N`-th root of unity. -/
theorem xi_isPrimitiveRoot (N : ℕ) (hN : 0 < N) :
    IsPrimitiveRoot (xi N) (2 * N) := by
  have h : xi N =
      Complex.exp (2 * (Real.pi : ℂ) * Complex.I / ((2 * N : ℕ) : ℂ)) := by
    unfold xi
    congr 1
    push_cast
    ring
  rw [h]
  exact Complex.isPrimitiveRoot_exp (2 * N) (by omega)

/-- The embedding root does not vanish. -/
theorem xi_ne_zero (N : ℕ) : xi N ≠ 0 := Complex.exp_ne_zero _

/-- The embedding root to the `N`-th power is minus one. -/
theorem xi_pow_N (N : ℕ) (hN : 0 < N) : xi N ^ N = -1 := by
  unfold xi
  rw [← Complex.exp_nat_mul]
  have harg : (N : ℂ) * (((2 * Real.pi / (2 * N) : ℝ) : ℂ) * Complex.I)
      = (Real.pi : ℂ) * Complex.I := by
    have hNne : ((N : ℂ)) ≠ 0 := Nat.cast_ne_zero.mpr (by omega)
    push_cast
    field_simp
    ring
  rw [harg, Complex.exp_pi_mul_I]

/-- Powers of the embedding root lie on the unit circle. -/
theorem xi_abs_pow (N m : ℕ) : Complex.abs (xi N ^ m) = 1 := by
  rw [map_pow]
  unfold xi
  rw [Complex.abs_exp_ofReal_mul_I]
  exact one_pow m

/-- The embedding root to the `2 N`-th power is one. -/
theorem xi_pow_twoN (N : ℕ) (hN : 0 < N) : xi N ^ (2 * N) = 1 :=
  (xi_isPrimitiveRoot N hN).pow_eq_one

/-- Orthogonality of the embedding characters: the geometric sum of the
ratio of two odd root powers vanishes unless the two indices agree. -/
theorem xi_geom_sum (N : ℕ) (hN : 0 < N) (j l : Fin N) :
    (∑ k : Fin N,
      (xi N ^ (2 * (j : ℕ) + 1) * (xi N ^ (2 * (l : ℕ) + 1))⁻¹) ^ (k : ℕ)) =
      if l = j then (N : ℂ) else 0 := by
  by_cases h : l = j
  · subst h
    rw [if_pos rfl]
    have h1 : xi N ^ (2 * (l : ℕ) + 1) * (xi N ^ (2 * (l : ℕ) + 1))⁻¹ = 1 :=
      mul_inv_cancel₀ (pow_ne_zero _ (xi_ne_zero N))
    simp [h1]
  · rw [if_neg h]
    set z : ℂ := xi N ^ (2 * (j : ℕ) + 1) * (xi N ^ (2 * (l : ℕ) + 1))⁻¹ with hz
    have hzN : z ^ N = 1 := by
      rw [hz, mul_pow, inv_pow, ← pow_mul, ← pow_mul]
      have hjN : xi N ^ ((2 * (j : ℕ) + 1) * N) = -1 := by
        rw [mul_comm (2 * (j : ℕ) + 1) N, pow_mul, xi_pow_N N hN]
        exact Odd.neg_one_pow ⟨(j : ℕ), by ring⟩
      have hlN : xi N ^ ((2 * (l : ℕ) + 1) * N) = -1 := by
        rw [mul_comm (2 * (l : ℕ) + 1) N, pow_mul, xi_pow_N N hN]
        exact Odd.neg_one_pow ⟨(l : ℕ), by ring⟩
      rw [hjN, hlN]
      norm_num
    have hz1 : z ≠ 1 := by
      intro hcon
      rw [hz, mul_inv_eq_one₀ (pow_ne_zero _ (xi_ne_zero N))] at hcon
      have := (xi_isPrimitiveRoot N hN).pow_inj
        (by omega : 2 * (j : ℕ) + 1 < 2 * N)
        (by omega : 2 * (l : ℕ) + 1 < 2 * N) hcon
      exact h (Fin.ext (by omega)).symm
    have hgeom : (∑ k : Fin N, z ^ (k : ℕ)) = ∑ k ∈ Finset.range N, z ^ k :=
      Fin.sum_univ_eq_sum_range (fun k => z ^ k) N
    rw [hgeom, geom_sum_eq hz1, hzN]
    simp

/-- The forward canonical embedding inverts the inverse embedding. -/
theorem sigmaFwd_sigmaInv (N : ℕ) (hN : 0 < N) (w : Fin N → ℂ) :
    sigmaFwd N (sigmaInv N w) = w := by
  funext j
  unfold sigmaFwd sigmaInv
  have hNne : ((N : ℂ)) ≠ 0 := Nat.cast_ne_zero.mpr (by omega)
  calc (∑ k : Fin N,
        (∑ l : Fin N, w l * (xi N)⁻¹ ^ ((2 * (l : ℕ) + 1) * (k : ℕ))) / (N : ℂ)
          * xi N ^ ((2 * (j : ℕ) + 1) * (k : ℕ)))
      = ∑ k : Fin N, ∑ l : Fin N, w l / (N : ℂ) *
          (xi N ^ (2 * (j : ℕ) + 1) * (xi N ^ (2 * (l : ℕ) + 1))⁻¹) ^ (k : ℕ) := by
        refine Finset.sum_congr rfl fun k _ => ?_
        rw [div_mul_eq_mul_div, Finset.sum_mul, Finset.sum_div]
        refine Finset.sum_congr rfl fun l _ => ?_
        rw [mul_pow, inv_pow, inv_pow, pow_mul, pow_mul]
        ring
    _ = ∑ l : Fin N, w l / (N : ℂ) *
          ∑ k : Fin N,
            (xi N ^ (2 * (j : ℕ) + 1) * (xi N ^ (2 * (l : ℕ) + 1))⁻¹) ^ (k : ℕ) := by
        rw [Finset.sum_comm]
        refine Finset.sum_congr rfl fun l _ => ?_
        rw [Finset.mul_sum]
    _ = w j := by
        simp only [xi_geom_sum N hN j]
        rw [Finset.sum_eq_single j]
        · rw [if_pos rfl, div_mul_cancel₀ _ hNne]
        · intro l _ hl
          rw [if_neg hl, mul_zero]
        · intro hj
          exact absurd (Finset.mem_univ _) hj

end CKKS

namespace CKKS

/-- Conjugating the embedding root inverts it. -/
theorem xi_conj (N : ℕ) : (starRingEnd ℂ) (xi N) = (xi N)⁻¹ := by
  unfold xi
  rw [← Complex.exp_conj, ← Complex.exp_neg]
  congr 1
  simp only [map_mul, Complex.conj_ofReal, Complex.conj_I]
  ring

/-- Reversal identity for odd powers of the embedding root: the exponent
attached to the reversed index complements the original one to `2 N`. -/
theorem xi_rev_pow (N : ℕ) (hN : 0 < N) (l : Fin N) (k : ℕ) :
    xi N ^ ((2 * ((Fin.rev l : Fin N) : ℕ) + 1) * k) =
      (xi N)⁻¹ ^ ((2 * (l : ℕ) + 1) * k) := by
  have hval : ((Fin.rev l : Fin N) : ℕ) = N - 1 - (l : ℕ) := by
    rw [Fin.val_rev]
    omega
  have hl := l.isLt
  have hsum : (2 * ((Fin.rev l : Fin N) : ℕ) + 1) * k +
      (2 * (l : ℕ) + 1) * k = 2 * N * k := by
    rw [hval, ← Nat.add_mul]
    congr 1
    omega
  have hone : xi N ^ ((2 * ((Fin.rev l : Fin N) : ℕ) + 1) * k) *
      xi N ^ ((2 * (l : ℕ) + 1) * k) = 1 := by
    rw [← pow_add, hsum, pow_mul, xi_pow_twoN N hN, one_pow]
  rw [inv_pow]
  exact eq_inv_of_mul_eq_one_right (by rw [mul_comm]; exact hone)

/-- On conjugate-symmetric inputs the inverse canonical embedding takes real
values. -/
theorem sigmaInv_real (N : ℕ) (hN : 0 < N) (w : Fin N → ℂ)
    (hsym : ∀ l : Fin N, w (Fin.rev l) = (starRingEnd ℂ) (w l)) (k : Fin N) :
    ((sigmaInv N w k).re : ℂ) = sigmaInv N w k := by
  rw [← Complex.conj_eq_iff_re]
  unfold sigmaInv
  rw [map_div₀, map_natCast, map_sum]
  congr 1
  refine Fintype.sum_bijective Fin.rev
    (Function.Involutive.bijective Fin.rev_involutive) _ _ fun l => ?_
  rw [map_mul, map_pow, map_inv₀, xi_conj, inv_inv, hsym l,
    ← xi_rev_pow N hN (Fin.rev l) (k : ℕ), Fin.rev_rev]

/-- The conjugate-symmetric padding really is conjugate-symmetric (for even
`N`). -/
theorem padSym_symm (N : ℕ) (hN2 : 2 ∣ N) (hN : 0 < N) (vs : List ℂ)
    (j : Fin N) :
    padSym N vs (Fin.rev j) = (starRingEnd ℂ) (padSym N vs j) := by
  unfold padSym
  have hval : ((Fin.rev j : Fin N) : ℕ) = N - 1 - (j : ℕ) := by
    rw [Fin.val_rev]
    omega
  have hj := j.isLt
  by_cases h : (j : ℕ) < N / 2
  · have h1 : ¬ (((Fin.rev j : Fin N) : ℕ) < N / 2) := by
      rw [hval]
      omega
    rw [if_neg h1, if_pos h, hval]
    congr 2
    omega
  · have h1 : ((Fin.rev j : Fin N) : ℕ) < N / 2 := by
      rw [hval]
      omega
    rw [if_pos h1, if_neg h, Complex.conj_conj, hval]

end CKKS

namespace CKKS

/-- C1: for every complex input vector of length at most `N / 2` and every
positive scale, decoding the encoding of the vector returns each requested
slot within `N / (2 Δ)` of its original value — an error bound of order
`1 / scale` (coming from rounding the embedding), shrinking as the scale
grows; the round trip is approximate, not exact.  The modular reduction of
the freshly encoded coefficients is assumed not to wrap (the spec's
operational noise-budget precondition). -/
theorem C1_decode_encode_roundtrip (P : CKKSParams) (vs : List ℂ) (Δ : ℚ)
    (hlog : 1 ≤ P.logN) (hΔ : 0 < Δ) (hlen : vs.length ≤ slotCount P)
    (hQ : ∀ k, 2 * (rawCoeff (ringDim P) vs Δ k).natAbs < Qat P (topLevel P)) :
    ∀ pt, encode P vs Δ = .ok pt →
      ∀ j : Fin (slotCount P),
        Complex.abs (decode P pt j - vs.getD (j : ℕ) 0) ≤
          (ringDim P : ℝ) / (2 * (Δ : ℝ)) := by
  intro pt hok j
  have hN : 0 < ringDim P := ringDim_pos P
  have hN2 : 2 ∣ ringDim P := by
    have h : ringDim P = 2 * 2 ^ (P.logN - 1) := by
      unfold ringDim
      conv_lhs => rw [show P.logN = (P.logN - 1) + 1 by omega]
      rw [pow_succ]
      ring
    exact ⟨2 ^ (P.logN - 1), h⟩
  unfold encode at hok
  rw [if_neg (not_lt.mpr hlen)] at hok
  simp only [Except.ok.injEq] at hok
  subst hok
  have hJlt : ((Fin.castLE (Nat.div_le_self (ringDim P) 2) j : Fin (ringDim P)) : ℕ)
      < ringDim P / 2 := j.isLt
  have hcoef : ∀ k, (pmod (ringDim P) (Qat P (topLevel P))
      (rawCoeff (ringDim P) vs Δ)) k = rawCoeff (ringDim P) vs Δ k :=
    fun k => cmod_eq_self (hQ k)
  have hreal : ∀ k, ((sigmaInv (ringDim P) (padSym (ringDim P) vs) k).re : ℂ)
      = sigmaInv (ringDim P) (padSym (ringDim P) vs) k :=
    fun k => sigmaInv_real _ hN _ (fun l => padSym_symm _ hN2 hN vs l) k
  have hw : padSym (ringDim P) vs
      (Fin.castLE (Nat.div_le_self (ringDim P) 2) j) = vs.getD (j : ℕ) 0 := by
    unfold padSym
    rw [if_pos hJlt]
    rfl
  have hinv : sigmaFwd (ringDim P)
      (sigmaInv (ringDim P) (padSym (ringDim P) vs))
      (Fin.castLE (Nat.div_le_self (ringDim P) 2) j)
      = padSym (ringDim P) vs (Fin.castLE (Nat.div_le_self (ringDim P) 2) j) :=
    congrFun (sigmaFwd_sigmaInv (ringDim P) hN _) _
  have hΔR : (0 : ℝ) < (Δ : ℝ) := by exact_mod_cast hΔ
  have hΔC : ((Δ : ℚ) : ℂ) ≠ 0 := by exact_mod_cast hΔ.ne'
  have hdec : decode P
      { coeffs := pmod (ringDim P) (Qat P (topLevel P)) (rawCoeff (ringDim P) vs Δ)
        scale := Δ, level := topLevel P } j
      = (∑ k : Fin (ringDim P), ((rawCoeff (ringDim P) vs Δ k : ℤ) : ℂ)
          * xi (ringDim P) ^
            ((2 * ((Fin.castLE (Nat.div_le_self (ringDim P) 2) j : Fin (ringDim P)) : ℕ) + 1)
              * (k : ℕ))) / ((Δ : ℚ) : ℂ) := by
    unfold decode sigmaFwd
    congr 1
    refine Finset.sum_congr rfl fun k _ => ?_
    show (((pmod (ringDim P) (Qat P (topLevel P))
        (rawCoeff (ringDim P) vs Δ)) k : ℤ) : ℂ)
        * xi (ringDim P) ^
          ((2 * ((Fin.castLE (Nat.div_le_self (ringDim P) 2) j : Fin (ringDim P)) : ℕ) + 1)
            * (k : ℕ))
      = ((rawCoeff (ringDim P) vs Δ k : ℤ) : ℂ)
        * xi (ringDim P) ^
          ((2 * ((Fin.castLE (Nat.div_le_self (ringDim P) 2) j : Fin (ringDim P)) : ℕ) + 1)
            * (k : ℕ))
    rw [hcoef k]
  rw [hdec, div_sub' _ _ _ hΔC, ← hw]
  have hnum : (∑ k : Fin (ringDim P), ((rawCoeff (ringDim P) vs Δ k : ℤ) : ℂ)
        * xi (ringDim P) ^
          ((2 * ((Fin.castLE (Nat.div_le_self (ringDim P) 2) j : Fin (ringDim P)) : ℕ) + 1)
            * (k : ℕ)))
      - ((Δ : ℚ) : ℂ) * padSym (ringDim P) vs
          (Fin.castLE (Nat.div_le_self (ringDim P) 2) j)
      = ∑ k : Fin (ringDim P),
          (((rawCoeff (ringDim P) vs Δ k : ℝ)
            - (Δ : ℝ) * (sigmaInv (ringDim P) (padSym (ringDim P) vs) k).re : ℝ) : ℂ)
          * xi (ringDim P) ^
            ((2 * ((Fin.castLE (Nat.div_le_self (ringDim P) 2) j : Fin (ringDim P)) : ℕ) + 1)
              * (k : ℕ)) := by
    conv_lhs => rw [← hinv]
    unfold sigmaFwd
    rw [Finset.mul_sum, ← Finset.sum_sub_distrib]
    refine Finset.sum_congr rfl fun k _ => ?_
    conv_lhs => rw [← hreal k]
    push_cast
    ring
  rw [hnum, map_div₀]
  have habsΔ : Complex.abs ((Δ : ℚ) : ℂ) = (Δ : ℝ) := by
    rw [← Complex.ofReal_ratCast, Complex.abs_ofReal, abs_of_pos hΔR]
  rw [habsΔ]
  have hbound : Complex.abs (∑ k : Fin (ringDim P),
        (((rawCoeff (ringDim P) vs Δ k : ℝ)
          - (Δ : ℝ) * (sigmaInv (ringDim P) (padSym (ringDim P) vs) k).re : ℝ) : ℂ)
        * xi (ringDim P) ^
          ((2 * ((Fin.castLE (Nat.div_le_self (ringDim P) 2) j : Fin (ringDim P)) : ℕ) + 1)
            * (k : ℕ)))
      ≤ (ringDim P : ℝ) / 2 := by
    refine le_trans (Complex.abs.sum_le _ _) ?_
    have hterm : ∀ k : Fin (ringDim P),
        Complex.abs ((((rawCoeff (ringDim P) vs Δ k : ℝ)
          - (Δ : ℝ) * (sigmaInv (ringDim P) (padSym (ringDim P) vs) k).re : ℝ) : ℂ)
          * xi (ringDim P) ^
            ((2 * ((Fin.castLE (Nat.div_le_self (ringDim P) 2) j : Fin (ringDim P)) : ℕ) + 1)
              * (k : ℕ))) ≤ 1 / 2 := by
      intro k
      rw [map_mul, xi_abs_pow, mul_one, Complex.abs_ofReal]
      have hround := abs_sub_round
        ((Δ : ℝ) * (sigmaInv (ringDim P) (padSym (ringDim P) vs) k).re)
      have hraw : rawCoeff (ringDim P) vs Δ k
          = round ((Δ : ℝ) *
            (sigmaInv (ringDim P) (padSym (ringDim P) vs) k).re) := rfl
      rw [hraw, abs_sub_comm]
      exact hround
    refine le_trans (Finset.sum_le_sum fun k _ => hterm k) ?_
    rw [Finset.sum_const, Finset.card_univ, Fintype.card_fin, nsmul_eq_mul]
    exact le_of_eq (by ring)
  calc Complex.abs (∑ k : Fin (ringDim P),
        (((rawCoeff (ringDim P) vs Δ k : ℝ)
          - (Δ : ℝ) * (sigmaInv (ringDim P) (padSym (ringDim P) vs) k).re : ℝ) : ℂ)
        * xi (ringDim P) ^
          ((2 * ((Fin.castLE (Nat.div_le_self (ringDim P) 2) j : Fin (ringDim P)) : ℕ) + 1)
            * (k : ℕ))) / (Δ : ℝ)
      ≤ ((ringDim P : ℝ) / 2) / (Δ : ℝ) := by
        gcongr
    _ = (ringDim P : ℝ) / (2 * (Δ : ℝ)) := by
        rw [div_div]

end CKKS

namespace CKKS

/-- Encoding the zero vector produces all-zero raw coefficients. -/
theorem rawCoeff_zero_input (k : Fin (ringDim P0)) :
    rawCoeff (ringDim P0) [0] 1 k = 0 := by
  have hgetD : ∀ n : ℕ, ([(0 : ℂ)]).getD n 0 = 0 := by
    intro n
    rcases n with _ | n
    · rfl
    · rfl
  have hpad : padSym (ringDim P0) [0] = fun _ => 0 := by
    funext i
    unfold padSym
    by_cases h : (i : ℕ) < ringDim P0 / 2
    · rw [if_pos h, hgetD]
    · rw [if_neg h, hgetD, map_zero]
  unfold rawCoeff
  rw [hpad]
  have hz : sigmaInv (ringDim P0) (fun _ => 0) k = 0 := by
    unfold sigmaInv
    simp
  rw [hz]
  simp

/-- Encoding the one-slot zero vector at the sample parameters succeeds with
the concrete plaintext. -/
theorem encode_P0_zero : encode P0 [0] 1 = .ok pt0 := by
  unfold encode
  rw [if_neg (by decide)]
  rfl

/-- C1 witness: the round-trip bound evaluates on the concrete one-slot
input `[0]` at scale 1 under the sample parameter set. -/
theorem C1_witness :
    Complex.abs (decode P0 pt0 ⟨0, by decide⟩ - ([(0 : ℂ)]).getD 0 0) ≤
      (ringDim P0 : ℝ) / (2 * ((1 : ℚ) : ℝ)) :=
  C1_decode_encode_roundtrip P0 [0] 1 (by decide) (by decide) (by decide)
    (fun k => by rw [rawCoeff_zero_input k]; decide)
    pt0 encode_P0_zero ⟨0, by decide⟩

end CKKS
